import Mathlib

/-!
Shallow embedding of the manga-syncer synchronization engine.

Strings are modelled as `List Char`.  The sources embedded here are:
* `convertName`, `convertUUID`, `findExisting` from `main.go`
  (`src/unnamed/part_000`),
* `buildChapterArchiveName`, `getAllChapters`, `syncManga` from
  `src/manga.go` (first revision in the file, the one the claims cite),
* `downloadChapter` from `src/chapter.go` (second revision in the file,
  the concurrent fan-out one the claims cite).

The Unicode character classes `\p{L}` and `\p{N}` used by the sanitizer
regexes are modelled by an arbitrary predicate parameter `pLN`; every
theorem about the sanitizer is proved for all such predicates, and
concrete evaluations instantiate it with the ASCII letter/digit test.
-/

namespace MangaSyncer

abbrev Name := List Char

/-! ## Filename sanitizer (`convertName`, main.go)

The source keeps two compiled regexes:
`safeFilenameRegex  = [^’'",#!\(\)!\p{L}\p{N}-_+=\[\]. ]+` and
`safeQuestionMarkRegex` which additionally allows `?` (selected by the
`AllowQuestionMarks` configuration toggle).  Inside the character class the
`-` between `\p{N}` and `_` is a literal hyphen.  `pAllowed pLN qm c`
decides membership in the allow-list. -/

def pAllowed (pLN : Char → Bool) (qm : Bool) (c : Char) : Bool :=
  (qm && (c = '?')) || c = '’' || c = '\'' || c = '"' || c = ',' || c = '#' ||
    c = '!' || c = '(' || c = ')' || pLN c || c = '-' || c = '_' || c = '+' ||
    c = '=' || c = '[' || c = ']' || c = '.' || c = ' '

/-- ASCII instantiation of the `\p{L}\p{N}` classes, used for concrete
evaluations (all concrete inputs in the claims are ASCII). -/
def asciiLN (c : Char) : Bool := c.isAlpha || c.isDigit

/-- Model of `safeFilenameRegex.ReplaceAllString(input, "-")`: each maximal run of
characters outside the allow-list is replaced by a single hyphen.  The
boolean argument records whether the previous character was part of a
disallowed run (so the run produces only one hyphen). -/
def replaceAux (p : Char → Bool) : Bool → List Char → List Char
  | _, [] => []
  | inRun, c :: rest =>
    if p c then c :: replaceAux p false rest
    else if inRun then replaceAux p true rest
    else '-' :: replaceAux p true rest

def replaceRuns (p : Char → Bool) (l : List Char) : List Char :=
  replaceAux p false l

/-- Model of `repeatedHyphens.ReplaceAllString(output, "-")` with
`repeatedHyphens = --+`: every maximal run of two or more hyphens becomes a
single hyphen. -/
def collapseHyphens : List Char → List Char
  | [] => []
  | [c] => [c]
  | a :: b :: rest =>
    if a = '-' ∧ b = '-' then collapseHyphens (b :: rest)
    else a :: collapseHyphens (b :: rest)

/-- The cutset of `strings.Trim(output, "- ")`. -/
def cutChar (c : Char) : Bool := c = '-' || c = ' '

/-- Model of `strings.Trim`: remove all leading and trailing cutset characters. -/
def trimChars (cut : Char → Bool) (l : List Char) : List Char :=
  ((l.dropWhile cut).reverse.dropWhile cut).reverse

/-- The function `convertName` from main.go, parameterized by the allow-list predicate
(`pAllowed pLN qm` for the mode selected by the configuration). -/
def convertName (p : Char → Bool) (input : List Char) : List Char :=
  trimChars cutChar (collapseHyphens (replaceRuns p input))

/-- No two adjacent hyphens occur in the list. -/
def NoDoubleHyphen (l : List Char) : Prop :=
  l.Chain' (fun a b => ¬(a = '-' ∧ b = '-'))

/-- A fully sanitized string: only allow-listed characters, no hyphen runs,
and no leading or trailing hyphen or space. -/
def Sanitized (p : Char → Bool) (l : List Char) : Prop :=
  (∀ c ∈ l, p c = true) ∧ NoDoubleHyphen l ∧
    (∀ c, l.head? = some c → cutChar c = false) ∧
    (∀ c, l.getLast? = some c → cutChar c = false)

/-! ## Identifier codec (`convertUUID`, main.go)

`convertUUID` parses the remote ID with `uuid.Parse` (google/uuid) and
returns `strings.Trim(base64.URLEncoding.EncodeToString(u[:]), "=")`.
`uuid.Parse` accepts the canonical 36-character form, the
`urn:uuid:`-prefixed form (45 characters, case-insensitive prefix), the
braced form (38 characters; google/uuid only strips the first character),
and the 32-character plain-hex form; anything else is an error. -/

def hexVal (c : Char) : Option Nat :=
  if '0' ≤ c ∧ c ≤ '9' then some (c.toNat - '0'.toNat)
  else if 'a' ≤ c ∧ c ≤ 'f' then some (c.toNat - 'a'.toNat + 10)
  else if 'A' ≤ c ∧ c ≤ 'F' then some (c.toNat - 'A'.toNat + 10)
  else none

/-- Read one byte (two hex digits) of the UUID at each listed position. -/
def readPairs (s : List Char) : List Nat → Option (List Nat)
  | [] => some []
  | x :: xs =>
    match s.get? x, s.get? (x + 1) with
    | some a, some b =>
      match hexVal a, hexVal b with
      | some hv, some lv => (readPairs s xs).map fun r => (hv * 16 + lv) :: r
      | _, _ => none
    | _, _ => none

/-- Positions of the byte pairs in the canonical
`xxxxxxxx-xxxx-xxxx-xxxx-xxxxxxxxxxxx` form. -/
def canonPositions : List Nat :=
  [0, 2, 4, 6, 9, 11, 14, 16, 19, 21, 24, 26, 28, 30, 32, 34]

/-- Parse the canonical 36-character body: hyphens at 8, 13, 18, 23 and
sixteen hex pairs. -/
def parseCanon (s : List Char) : Option (List Nat) :=
  if s.get? 8 = some '-' ∧ s.get? 13 = some '-' ∧ s.get? 18 = some '-' ∧
      s.get? 23 = some '-' then
    readPairs s canonPositions
  else none

def urnPrefix : List Char := "urn:uuid:".toList

/-- Model of `uuid.Parse`, returning the sixteen bytes of the UUID. -/
def uuidParse (s : List Char) : Option (List Nat) :=
  if s.length = 36 then parseCanon s
  else if s.length = 36 + 9 then
    if (s.take 9).map Char.toLower = urnPrefix then parseCanon (s.drop 9)
    else none
  else if s.length = 36 + 2 then parseCanon (s.drop 1)
  else if s.length = 32 then
    readPairs s [0, 2, 4, 6, 8, 10, 12, 14, 16, 18, 20, 22, 24, 26, 28, 30]
  else none

def b64Alphabet : List Char :=
  "ABCDEFGHIJKLMNOPQRSTUVWXYZabcdefghijklmnopqrstuvwxyz0123456789-_".toList

def b64Char (n : Nat) : Char := b64Alphabet.getD (n % 64) 'A'

/-- Model of `base64.URLEncoding.EncodeToString` on a byte list, with `=` padding. -/
def base64encode : List Nat → List Char
  | [] => []
  | [b1] => [b64Char (b1 / 4), b64Char (b1 % 4 * 16), '=', '=']
  | [b1, b2] => [b64Char (b1 / 4), b64Char (b1 % 4 * 16 + b2 / 16),
      b64Char (b2 % 16 * 4), '=']
  | b1 :: b2 :: b3 :: rest =>
    b64Char (b1 / 4) :: b64Char (b1 % 4 * 16 + b2 / 16) ::
      b64Char (b2 % 16 * 4 + b3 / 64) :: b64Char (b3 % 64) ::
        base64encode rest

/-- The function `convertUUID` from main.go: parse, base64url-encode, trim `=`. -/
def convertUUID (s : List Char) : Option (List Char) :=
  (uuidParse s).map fun bytes => trimChars (fun c => c = '=') (base64encode bytes)

/-! ## Existing-archive index (`findExisting`, main.go)

`findExisting(files, id)` returns the name of the first directory entry
whose name, with a trailing `.zip` stripped, ends with `id`; it returns
the empty string (here `[]`) when no entry matches.  Directory listings
are modelled as lists of entry names; `syncManga` pre-filters the listing
to plain `.zip` files, so the planner model carries just those names. -/

/-- Model of `strings.TrimSuffix(name, ".zip")`. -/
def trimSuffixZip (f : Name) : Name :=
  if ".zip".toList <:+ f then f.take (f.length - 4) else f

/-- Model of `strings.HasSuffix(strings.TrimSuffix(f.Name(), ".zip"), id)`. -/
def matchesName (f id : Name) : Prop := id <:+ trimSuffixZip f

instance (f id : Name) : Decidable (matchesName f id) := by
  unfold matchesName
  infer_instance

def findExisting (files : List Name) (id : Name) : Name :=
  match files with
  | [] => []
  | f :: rest => if matchesName f id then f else findExisting rest id

/-- Effect of `os.Rename(old, new)` on a directory listing: if the source
exists it disappears, any entry already named `dst` is clobbered, and `dst`
appears; if the source does not exist the rename fails and is only logged,
leaving the listing unchanged. -/
def renameFs (files : List Name) (src dst : Name) : List Name :=
  if src ∈ files then ((files.erase src).erase dst) ++ [dst] else files

/-! ## Sync planner (`syncManga` chapter loop, manga.go)

The embedding covers the per-chapter planning loop of `syncManga` (the
revision with deduplication, empty/external skips and group resolution),
with the reporting flags `print-valid`/`print-unmatched` off and no
`-chapter` restriction, i.e. the normal download-sync mode the claims are
about.  Network fetches, metadata decoding and the blocked-group filter
happen before this loop and are not needed by the claims; the resolved
group map is a parameter.  A download job's effect (the archive appearing
in the directory) is applied immediately, modelling a run whose planned
downloads all complete. -/

structure ChapterRel where
  relType : Name
  relId : Name
deriving DecidableEq

structure MangaChapter where
  id : Name
  volume : Option Name
  chapter : Name
  title : Option Name
  hash : Name
  data : List Name
  relationships : List ChapterRel
deriving DecidableEq

/-- The record `chapterJob` from chapter.go (second revision): the chapter record plus
the destination path.  The manga directory prefix joined by
`filepath.Join` is common to every name of one work and is omitted. -/
structure ChapterJob where
  chapter : MangaChapter
  archivePath : Name
deriving DecidableEq

/-- Configuration and resolved inputs of one `syncManga` pass. -/
structure SyncCtx where
  pLN : Char → Bool
  allowQM : Bool
  groups : List (Name × Name)
  renameChapters : Bool

/-- The function `groupIdsForChapter`: IDs of relationships typed `scanlation_group`. -/
def groupIdsForChapter (c : MangaChapter) : List Name :=
  (c.relationships.filter fun r => r.relType = "scanlation_group".toList).map
    ChapterRel.relId

/-- The function `buildChapterArchiveName` from manga.go: optional `Vol.` segment,
`Ch.` segment, optional title, optional bracketed resolved group names,
then the sanitized prefix, the token and `.zip`. -/
def buildChapterArchiveName (ctx : SyncCtx) (c : MangaChapter) (cid : Name) :
    Name :=
  let out1 := match c.volume with
    | some v => "Vol. ".toList ++ v ++ [' ']
    | none => []
  let out2 := out1 ++ "Ch. ".toList ++ c.chapter
  let out3 := match c.title with
    | some t => if t ≠ [] then out2 ++ ' ' :: t else out2
    | none => out2
  let gns := (groupIdsForChapter c).filterMap fun g => ctx.groups.lookup g
  let out4 := if gns ≠ [] then
      out3 ++ " [".toList ++ (List.intercalate ", ".toList gns) ++ [']']
    else out3
  convertName (pAllowed ctx.pLN ctx.allowQM) out4 ++ " - ".toList ++ cid ++
    ".zip".toList

/-- The skip test for externally hosted chapters:
`len(Data) == 1 && strings.HasPrefix(Data[0], "https://")`. -/
def isExternalOnly (pages : List Name) : Bool :=
  match pages with
  | [p] => "https://".toList.isPrefixOf p
  | _ => false

/-- The evolving state of one planning pass: the `chs` deduplication set,
the jobs sent so far, and the on-disk directory contents. -/
structure PlanState where
  seen : List Name
  jobs : List ChapterJob
  dir : List Name
deriving DecidableEq

/-- One iteration of the chapter loop of `syncManga`.  `archives` is the
in-memory index built once from the directory listing (the source never
updates it in this mode).  Returns the new state and `false` when the loop
aborts the whole work (invalid chapter UUID). -/
def syncStep (ctx : SyncCtx) (archives : List Name) (st : PlanState)
    (c : MangaChapter) : PlanState × Bool :=
  match convertUUID c.id with
  | none => (st, false)
  | some cid =>
    if c.id ∈ st.seen then (st, true)
    else
      let st1 : PlanState := { st with seen := c.id :: st.seen }
      if c.data = [] then (st1, true)
      else if isExternalOnly c.data then (st1, true)
      else
        let existing := findExisting archives cid
        let fileName := buildChapterArchiveName ctx c cid
        if existing ≠ [] then
          if ctx.renameChapters ∧ existing ≠ fileName then
            ({ st1 with dir := renameFs st1.dir existing fileName }, true)
          else (st1, true)
        else
          let job : ChapterJob := ⟨c, fileName⟩
          ({ st1 with jobs := st1.jobs ++ [job], dir := st1.dir ++ [fileName] },
            true)

/-- The chapter loop of `syncManga`, folding `syncStep` over the remote
chapter list and stopping early on an invalid chapter UUID. -/
def runSync (ctx : SyncCtx) (archives : List Name) :
    List MangaChapter → PlanState → PlanState
  | [], st => st
  | c :: cs, st =>
    let step := syncStep ctx archives st c
    if step.2 then runSync ctx archives cs step.1 else step.1

/-- A full planning pass over one work whose `.zip` listing is `dir`. -/
def planWork (ctx : SyncCtx) (dir : List Name) (cs : List MangaChapter) :
    PlanState :=
  runSync ctx dir cs ⟨[], [], dir⟩

/-- The driver loop of `main`: each configured work is synced in turn and
its jobs feed the shared queue; a work aborting only ends that work. -/
def syncAllWorks (ctx : SyncCtx) :
    List (List Name × List MangaChapter) → List ChapterJob
  | [] => []
  | w :: ws => (planWork ctx w.1 w.2).jobs ++ syncAllWorks ctx ws

def hasMatch (files : List Name) (id : Name) : Prop :=
  ∃ n ∈ files, matchesName n id

/-! ## Chapter download (`downloadChapter`, chapter.go)

The outcome of one `downloadChapter` call is modelled against an
environment recording the result of every external interaction: temp-dir
creation, the shutdown signal raced by the rate-limit ticker select, the
at-home handshake (HTTP status, JSON decode, base URL), the shutdown
signal observed before spawning page `i`, the result of page fetch `i`
(`pageOk` also covers a fetch goroutine that observed the shutdown signal
at the semaphore and reported `closed`), and the zip invocation.
`noStagingLeft` states that the staging directory does not survive the
call: the source registers `defer os.RemoveAll(dir)` right after a
successful `ioutil.TempDir`, and a failed `TempDir` creates nothing. -/

structure ChapterEnv where
  tempDirOk : Bool
  closedBeforeHandshake : Bool
  httpOk : Bool
  jsonOk : Bool
  baseURL : Name
  closedBeforeSpawn : Nat → Bool
  pageOk : Nat → Bool
  zipOk : Bool

structure DownloadOutcome where
  zipAttempted : Bool
  archiveWritten : Bool
  noStagingLeft : Bool
deriving DecidableEq

def downloadChapter (env : ChapterEnv) (pages : List Name) : DownloadOutcome :=
  if !env.tempDirOk then ⟨false, false, true⟩
  else if env.closedBeforeHandshake then ⟨false, false, true⟩
  else if !env.httpOk then ⟨false, false, true⟩
  else if !env.jsonOk then ⟨false, false, true⟩
  else if env.baseURL = [] then ⟨false, false, true⟩
  else if (List.range pages.length).any env.closedBeforeSpawn then
    ⟨false, false, true⟩
  else if (List.range pages.length).any (fun i => !env.pageOk i) then
    ⟨false, false, true⟩
  else ⟨true, env.zipOk, true⟩

/-! ## Chapter-list pagination (`getAllChapters`, manga.go)

The loop keeps `total := 1`, `offset := 0`, and while `offset < total`
fetches one page, appends its results, sets `total` to the page's reported
total, logs a pagination warning when the page length differs from
`pageSize` while `offset + len < total`, and advances `offset` by
`pageSize` unconditionally.  The remote is a function from offsets to
responses; recursion is on explicit fuel (the Go loop may iterate
unboundedly if the remote keeps growing its reported total). -/

def pageSize : Nat := 100

structure PageResp where
  results : List MangaChapter
  total : Nat

structure FetchOut where
  chapters : List MangaChapter
  warnings : List (Nat × Nat × Nat)
  offsets : List Nat

def fetchLoop (fetch : Nat → PageResp) : Nat → Nat → Nat → FetchOut
  | 0, _, _ => ⟨[], [], []⟩
  | fuel + 1, offset, total =>
    if offset < total then
      let cr := fetch offset
      let warn := if cr.results.length ≠ pageSize ∧
          offset + cr.results.length < cr.total then
        [(offset, cr.total, cr.results.length)]
      else []
      let rest := fetchLoop fetch fuel (offset + pageSize) cr.total
      ⟨cr.results ++ rest.chapters, warn ++ rest.warnings, offset :: rest.offsets⟩
    else ⟨[], [], []⟩

def getAllChapters (fetch : Nat → PageResp) (fuel : Nat) : FetchOut :=
  fetchLoop fetch fuel 0 1

/-- Modelled from the spec: the spec's pagination sentence makes the total
count authoritative from the first page, so after the first fetch the loop
bound stays fixed at the first page's reported total instead of being
re-read from each page.  Used only to compare against `getAllChapters`. -/
def fetchPagesFixedTotal (fetch : Nat → PageResp) :
    Nat → Nat → Nat → List MangaChapter
  | 0, _, _ => []
  | fuel + 1, offset, total =>
    if offset < total then
      (fetch offset).results ++ fetchPagesFixedTotal fetch fuel
        (offset + pageSize) total
    else []

/-- Modelled from the spec: fetch the first page, then keep its total. -/
def getAllChaptersSpec (fetch : Nat → PageResp) (fuel : Nat) :
    List MangaChapter :=
  (fetch 0).results ++ fetchPagesFixedTotal fetch fuel pageSize (fetch 0).total

def dummyChapter : MangaChapter := ⟨[], none, [], none, [], [], []⟩

/-- A remote whose pages keep raising the reported total: the first page
reports 150, the second 250. -/
def fetchCE (offset : Nat) : PageResp :=
  if offset = 0 then ⟨List.replicate 100 dummyChapter, 150⟩
  else if offset = 100 then ⟨List.replicate 100 dummyChapter, 250⟩
  else if offset = 200 then ⟨List.replicate 50 dummyChapter, 250⟩
  else ⟨[], 0⟩

def ctxCE : SyncCtx := ⟨asciiLN, false, [], true⟩

def tokA : Name := "AAAAAAAAAAAAAAAAAAAAAA".toList

def badChapter : MangaChapter :=
  ⟨"not-a-uuid".toList, none, "1".toList, none, [],
    ["001.png".toList, "002.png".toList], []⟩

def goodChapter : MangaChapter :=
  ⟨"00000000-0000-0000-0000-000000000000".toList, none, "2".toList, none, [],
    ["001.png".toList, "002.png".toList], []⟩

def emptyChapter : MangaChapter :=
  ⟨"01020304-0506-0708-090a-0b0c0d0e0f10".toList, none, "3".toList, none, [],
    [], []⟩

def oldNameCE : Name := "Old name - ".toList ++ tokA ++ ".zip".toList

def envCE : ChapterEnv :=
  ⟨true, false, true, true, "b".toList, fun _ => false, fun i => !(i == 1), true⟩

def pagesCE : List Name := ["001.png".toList, "002.png".toList]

/-- A remote whose single page is short while its reported total promises
more records. -/
def fetchShort (offset : Nat) : PageResp :=
  if offset = 0 then ⟨List.replicate 50 dummyChapter, 200⟩
  else ⟨[], 0⟩

lemma pAllowed_hyphen (pLN : Char → Bool) (qm : Bool) :
    pAllowed pLN qm '-' = true := by
  simp [pAllowed]

lemma replaceAux_mem (p : Char → Bool) :
    ∀ (b : Bool) (l : List Char), ∀ c ∈ replaceAux p b l, p c = true ∨ c = '-'
  | _, [], _, h => absurd h (List.not_mem_nil _)
  | b, x :: rest, c, h => by
    by_cases hx : p x
    · rw [replaceAux, if_pos hx] at h
      rcases List.mem_cons.mp h with rfl | h
      · exact Or.inl hx
      · exact replaceAux_mem p false rest c h
    · rw [replaceAux, if_neg hx] at h
      cases b with
      | true => exact replaceAux_mem p true rest c (by simpa using h)
      | false =>
        simp only [Bool.false_eq_true, if_false] at h
        rcases List.mem_cons.mp h with rfl | h
        · exact Or.inr rfl
        · exact replaceAux_mem p true rest c h

lemma replaceAux_of_allowed (p : Char → Bool) :
    ∀ (b : Bool) (l : List Char), (∀ c ∈ l, p c = true) → replaceAux p b l = l
  | _, [], _ => rfl
  | b, x :: rest, h => by
    have hx : p x = true := h x (List.mem_cons_self x rest)
    rw [replaceAux, if_pos hx,
      replaceAux_of_allowed p false rest (fun c hc => h c (List.mem_cons_of_mem x hc))]

lemma collapseHyphens_mem :
    ∀ (l : List Char), ∀ c ∈ collapseHyphens l, c ∈ l
  | [], _, h => absurd h (List.not_mem_nil _)
  | [x], c, h => by simpa [collapseHyphens] using h
  | a :: b :: rest, c, h => by
    rw [collapseHyphens] at h
    by_cases hab : a = '-' ∧ b = '-'
    · rw [if_pos hab] at h
      exact List.mem_cons_of_mem a (collapseHyphens_mem (b :: rest) c h)
    · rw [if_neg hab] at h
      rcases List.mem_cons.mp h with rfl | h
      · exact List.mem_cons_self _ _
      · exact List.mem_cons_of_mem a (collapseHyphens_mem (b :: rest) c h)

lemma collapseHyphens_head :
    ∀ (a : Char) (l : List Char), ∃ t, collapseHyphens (a :: l) = a :: t ∨
      (a = '-' ∧ collapseHyphens (a :: l) = collapseHyphens l)
  | a, [] => ⟨[], Or.inl rfl⟩
  | a, b :: rest => by
    by_cases hab : a = '-' ∧ b = '-'
    · exact ⟨[], Or.inr ⟨hab.1, by rw [collapseHyphens, if_pos hab]⟩⟩
    · exact ⟨collapseHyphens (b :: rest), Or.inl (by rw [collapseHyphens, if_neg hab])⟩

lemma collapseHyphens_noDouble : ∀ (l : List Char), NoDoubleHyphen (collapseHyphens l)
  | [] => List.chain'_nil
  | [x] => by simp [collapseHyphens, NoDoubleHyphen]
  | a :: b :: rest => by
    rw [collapseHyphens]
    by_cases hab : a = '-' ∧ b = '-'
    · rw [if_pos hab]
      exact collapseHyphens_noDouble (b :: rest)
    · rw [if_neg hab]
      have ih := collapseHyphens_noDouble (b :: rest)
      rcases collapseHyphens_head b rest with ⟨t, ht | ⟨hb, ht⟩⟩
      · rw [ht] at ih ⊢
        exact (List.chain'_cons).mpr ⟨fun hc => hab ⟨hc.1, hc.2⟩, ih⟩
      · -- b = '-' and the head of the collapsed tail cannot be '-' again:
        -- any head of `collapseHyphens rest` that equals '-' would contradict
        -- `hab` only through `a`; we argue directly on the shape.
        cases hcol : collapseHyphens (b :: rest) with
        | nil => simp [hcol, NoDoubleHyphen]
        | cons x t =>
          rw [hcol] at ih
          refine (List.chain'_cons).mpr ⟨?_, ih⟩
          rintro ⟨ha, hx⟩
          exact hab ⟨ha, hb⟩

lemma collapseHyphens_of_noDouble :
    ∀ (l : List Char), NoDoubleHyphen l → collapseHyphens l = l
  | [], _ => rfl
  | [_], _ => rfl
  | a :: b :: rest, h => by
    have hab : ¬(a = '-' ∧ b = '-') := (List.chain'_cons.mp h).1
    rw [collapseHyphens, if_neg hab,
      collapseHyphens_of_noDouble (b :: rest) (List.chain'_cons.mp h).2]

lemma dropWhile_head_not (cut : Char → Bool) (l : List Char) :
    ∀ c, (l.dropWhile cut).head? = some c → cut c = false := by
  intro c hc
  have h := List.head?_dropWhile_not cut l
  rw [hc] at h
  exact h

lemma dropWhile_eq_self_of_head (cut : Char → Bool) (l : List Char)
    (h : ∀ c, l.head? = some c → cut c = false) : l.dropWhile cut = l := by
  cases l with
  | nil => rfl
  | cons x t =>
    rw [List.dropWhile_cons, if_neg]
    simp [h x rfl]

lemma trimChars_mem (cut : Char → Bool) (l : List Char) :
    ∀ c ∈ trimChars cut l, c ∈ l := by
  intro c hc
  unfold trimChars at hc
  rw [List.mem_reverse] at hc
  have h1 := (List.dropWhile_sublist (l := (l.dropWhile cut).reverse) cut).mem hc
  rw [List.mem_reverse] at h1
  exact (List.dropWhile_sublist cut).mem h1

lemma getLast?_of_suffix {l₁ l₂ : List Char} (h : l₁ <:+ l₂) (hne : l₁ ≠ []) :
    l₂.getLast? = l₁.getLast? := by
  obtain ⟨t, rfl⟩ := h
  rw [List.getLast?_append]
  cases hl : l₁.getLast? with
  | none => exact absurd (List.getLast?_eq_none_iff.mp hl) hne
  | some c => rfl

lemma trimChars_head (cut : Char → Bool) (l : List Char) :
    ∀ c, (trimChars cut l).head? = some c → cut c = false := by
  intro c hc
  unfold trimChars at hc
  rw [List.head?_reverse] at hc
  have hne : ((l.dropWhile cut).reverse.dropWhile cut) ≠ [] := by
    intro h0
    rw [h0] at hc
    exact absurd hc (by simp)
  have hsuf := List.dropWhile_suffix (l := (l.dropWhile cut).reverse) cut
  rw [← getLast?_of_suffix hsuf hne, List.getLast?_eq_head?_reverse,
    List.reverse_reverse] at hc
  exact dropWhile_head_not cut l c hc

lemma trimChars_getLast (cut : Char → Bool) (l : List Char) :
    ∀ c, (trimChars cut l).getLast? = some c → cut c = false := by
  intro c hc
  unfold trimChars at hc
  rw [List.getLast?_eq_head?_reverse, List.reverse_reverse] at hc
  exact dropWhile_head_not cut _ c hc

lemma trimChars_noDouble (l : List Char) (h : NoDoubleHyphen l) :
    NoDoubleHyphen (trimChars cutChar l) := by
  unfold trimChars
  have hsym : ∀ a b : Char, ¬(a = '-' ∧ b = '-') → ¬(b = '-' ∧ a = '-') := by
    intro a b hab hc
    exact hab ⟨hc.2, hc.1⟩
  have h1 : NoDoubleHyphen (l.dropWhile cutChar) :=
    h.suffix (List.dropWhile_suffix cutChar)
  have h2 : NoDoubleHyphen (l.dropWhile cutChar).reverse :=
    List.chain'_reverse.mpr (h1.imp fun a b hab => hsym a b hab)
  have h3 : NoDoubleHyphen ((l.dropWhile cutChar).reverse.dropWhile cutChar) :=
    h2.suffix (List.dropWhile_suffix cutChar)
  exact List.chain'_reverse.mpr (h3.imp fun a b hab => hsym a b hab)

lemma trimChars_eq_self (cut : Char → Bool) (l : List Char)
    (hh : ∀ c, l.head? = some c → cut c = false)
    (hl : ∀ c, l.getLast? = some c → cut c = false) :
    trimChars cut l = l := by
  unfold trimChars
  rw [dropWhile_eq_self_of_head cut l hh,
    dropWhile_eq_self_of_head cut l.reverse
      (fun c hc => hl c (by rwa [List.head?_reverse] at hc)),
    List.reverse_reverse]

/-- The sanitizer always produces a sanitized string. -/
lemma convertName_sanitized (p : Char → Bool) (hp : p '-' = true)
    (l : List Char) : Sanitized p (convertName p l) := by
  refine ⟨?_, ?_, ?_, ?_⟩
  · intro c hc
    have h1 := trimChars_mem cutChar _ c hc
    have h2 := collapseHyphens_mem _ c h1
    rcases replaceAux_mem p false l c h2 with h | rfl
    · exact h
    · exact hp
  · exact trimChars_noDouble _ (collapseHyphens_noDouble _)
  · exact trimChars_head cutChar _
  · exact trimChars_getLast cutChar _

/-- The sanitizer is the identity on sanitized strings. -/
lemma convertName_of_sanitized (p : Char → Bool) (l : List Char)
    (h : Sanitized p l) : convertName p l = l := by
  obtain ⟨hall, hnd, hh, hl⟩ := h
  unfold convertName replaceRuns
  rw [replaceAux_of_allowed p false l hall, collapseHyphens_of_noDouble l hnd,
    trimChars_eq_self cutChar l hh hl]


lemma readPairs_length (s : List Char) :
    ∀ (ps : List Nat) (bs : List Nat), readPairs s ps = some bs → bs.length = ps.length
  | [], bs, h => by
    simp only [readPairs, Option.some.injEq] at h
    simp [← h]
  | x :: xs, bs, h => by
    simp only [readPairs] at h
    split at h
    next a b _ _ =>
      split at h
      next hv lv _ _ =>
        rcases Option.map_eq_some'.mp h with ⟨r, hr, rfl⟩
        simp [readPairs_length s xs r hr]
      next => exact absurd h (by simp)
    next => exact absurd h (by simp)

lemma uuidParse_length (s : List Char) (bs : List Nat)
    (h : uuidParse s = some bs) : bs.length = 16 := by
  unfold uuidParse at h
  split_ifs at h with h1 h2 h3 h4 h5
  all_goals first
    | (unfold parseCanon at h
       split_ifs at h
       exact readPairs_length _ _ _ h)
    | exact readPairs_length _ _ _ h

lemma b64Char_ne_pad (n : Nat) : b64Char n ≠ '=' := by
  have h : n % 64 < 64 := Nat.mod_lt _ (by norm_num)
  have hall : ∀ k, k < 64 → b64Alphabet.getD k 'A' ≠ '=' := by decide
  exact hall (n % 64) h



lemma base64encode_concat :
    ∀ (bs : List Nat) (b : Nat), bs.length % 3 = 0 →
      ∃ main x y, base64encode (bs ++ [b]) = main ++ [x, y, '=', '='] ∧
        main.length = bs.length / 3 * 4 ∧ ∀ c ∈ main ++ [x, y], c ≠ '='
  | [], b, _ => by
    refine ⟨[], b64Char (b / 4), b64Char (b % 4 * 16), rfl, rfl, ?_⟩
    intro c hc
    rcases List.mem_cons.mp hc with rfl | hc
    · exact b64Char_ne_pad _
    · rcases List.mem_cons.mp hc with rfl | hc
      · exact b64Char_ne_pad _
      · exact absurd hc (List.not_mem_nil c)
  | [_], _, h => by simp at h
  | [_, _], _, h => by simp at h
  | b1 :: b2 :: b3 :: rest, b, h => by
    have hrest : rest.length % 3 = 0 := by
      have h3 : (b1 :: b2 :: b3 :: rest).length = rest.length + 3 := by simp
      rw [h3] at h
      omega
    obtain ⟨main, x, y, henc, hlen, hmem⟩ := base64encode_concat rest b hrest
    refine ⟨b64Char (b1 / 4) :: b64Char (b1 % 4 * 16 + b2 / 16) ::
      b64Char (b2 % 16 * 4 + b3 / 64) :: b64Char (b3 % 64) :: main, x, y, ?_, ?_, ?_⟩
    · simp [base64encode, henc]
    · simp at hlen ⊢
      omega
    · intro c hc
      simp only [List.cons_append, List.mem_cons] at hc
      rcases hc with rfl | rfl | rfl | rfl | hc
      · exact b64Char_ne_pad _
      · exact b64Char_ne_pad _
      · exact b64Char_ne_pad _
      · exact b64Char_ne_pad _
      · exact hmem c hc



lemma convertUUID_length (s t : List Char) (h : convertUUID s = some t) :
    t.length = 22 := by
  rcases Option.map_eq_some'.mp h with ⟨bytes, hparse, rfl⟩
  have h16 := uuidParse_length s bytes hparse
  rcases List.eq_nil_or_concat bytes with rfl | ⟨L, b, rfl⟩
  · simp at h16
  · have hL : L.length = 15 := by
      rw [List.concat_eq_append] at h16
      simpa using h16
    have h3 : L.length % 3 = 0 := by omega
    obtain ⟨main, x, y, henc, hlen, hmem⟩ := base64encode_concat L b h3
    rw [List.concat_eq_append, henc]
    have hx : x ≠ '=' := hmem x (by simp)
    have hy : y ≠ '=' := hmem y (by simp)
    have hdrop1 : (main ++ [x, y, '=', '=']).dropWhile (fun c => decide (c = '=')) =
        main ++ [x, y, '=', '='] := by
      cases main with
      | nil => simp [List.dropWhile_cons, hx]
      | cons c tl =>
        have hc : c ≠ '=' := hmem c (by simp)
        simp [List.dropWhile_cons, hc]
    have hrev : (main ++ [x, y, '=', '=']).reverse =
        '=' :: '=' :: y :: x :: main.reverse := by
      simp
    have hdrop2 : ('=' :: '=' :: y :: x :: main.reverse).dropWhile
        (fun c => decide (c = '=')) = y :: x :: main.reverse := by
      simp [List.dropWhile_cons, hy]
    show (trimChars (fun c => c = '=') (main ++ [x, y, '=', '='])).length = 22
    unfold trimChars
    rw [hdrop1, hrev, hdrop2]
    simp [hlen, hL]

section StepLemmas

variable (ctx : SyncCtx) (A : List Name) (st : PlanState) (c : MangaChapter)

lemma syncStep_none (h : convertUUID c.id = none) :
    syncStep ctx A st c = (st, false) := by
  simp [syncStep, h]

lemma syncStep_dup {cid : Name} (h : convertUUID c.id = some cid)
    (hdup : c.id ∈ st.seen) : syncStep ctx A st c = (st, true) := by
  simp [syncStep, h, hdup]

lemma syncStep_empty {cid : Name} (h : convertUUID c.id = some cid)
    (hdup : c.id ∉ st.seen) (hdata : c.data = []) :
    syncStep ctx A st c = ({ st with seen := c.id :: st.seen }, true) := by
  simp [syncStep, h, hdup, hdata]

lemma syncStep_external {cid : Name} (h : convertUUID c.id = some cid)
    (hdup : c.id ∉ st.seen) (hdata : c.data ≠ [])
    (hext : isExternalOnly c.data = true) :
    syncStep ctx A st c = ({ st with seen := c.id :: st.seen }, true) := by
  simp [syncStep, h, hdup, hdata, hext]

lemma syncStep_rename {cid : Name} (h : convertUUID c.id = some cid)
    (hdup : c.id ∉ st.seen) (hdata : c.data ≠ [])
    (hext : isExternalOnly c.data = false)
    (hex : findExisting A cid ≠ [])
    (hren : ctx.renameChapters ∧ findExisting A cid ≠ buildChapterArchiveName ctx c cid) :
    syncStep ctx A st c =
      ({ st with
          seen := c.id :: st.seen
          dir := renameFs st.dir (findExisting A cid)
            (buildChapterArchiveName ctx c cid) }, true) := by
  simp [syncStep, h, hdup, hdata, hext, hex, hren]

lemma syncStep_keep {cid : Name} (h : convertUUID c.id = some cid)
    (hdup : c.id ∉ st.seen) (hdata : c.data ≠ [])
    (hext : isExternalOnly c.data = false)
    (hex : findExisting A cid ≠ [])
    (hren : ¬(ctx.renameChapters ∧ findExisting A cid ≠ buildChapterArchiveName ctx c cid)) :
    syncStep ctx A st c = ({ st with seen := c.id :: st.seen }, true) := by
  simp [syncStep, h, hdup, hdata, hext, hex, hren]

lemma syncStep_job {cid : Name} (h : convertUUID c.id = some cid)
    (hdup : c.id ∉ st.seen) (hdata : c.data ≠ [])
    (hext : isExternalOnly c.data = false)
    (hex : findExisting A cid = []) :
    syncStep ctx A st c =
      ({ st with
          seen := c.id :: st.seen
          jobs := st.jobs ++ [⟨c, buildChapterArchiveName ctx c cid⟩]
          dir := st.dir ++ [buildChapterArchiveName ctx c cid] }, true) := by
  simp [syncStep, h, hdup, hdata, hext, hex]

lemma runSync_cons (cs : List MangaChapter) :
    runSync ctx A (c :: cs) st =
      if (syncStep ctx A st c).2 then runSync ctx A cs (syncStep ctx A st c).1
      else (syncStep ctx A st c).1 := by
  rfl

end StepLemmas

lemma trimSuffixZip_append (y : Name) :
    trimSuffixZip (y ++ ".zip".toList) = y := by
  unfold trimSuffixZip
  rw [if_pos (List.suffix_append y _)]
  have h : (y ++ ".zip".toList).length - 4 = y.length := by
    simp
  rw [h]
  exact List.take_left y _

lemma matchesName_canonical (x cid : Name) :
    matchesName (x ++ " - ".toList ++ cid ++ ".zip".toList) cid := by
  unfold matchesName
  have h : x ++ " - ".toList ++ cid ++ ".zip".toList =
      (x ++ " - ".toList ++ cid) ++ ".zip".toList := by
    simp [List.append_assoc]
  rw [h, trimSuffixZip_append]
  exact List.suffix_append (x ++ " - ".toList) cid

lemma buildName_shape (ctx : SyncCtx) (c : MangaChapter) (cid : Name) :
    ∃ pre, buildChapterArchiveName ctx c cid =
      pre ++ " - ".toList ++ cid ++ ".zip".toList :=
  ⟨_, rfl⟩

lemma matchesName_buildName (ctx : SyncCtx) (c : MangaChapter) (cid : Name) :
    matchesName (buildChapterArchiveName ctx c cid) cid := by
  obtain ⟨pre, hp⟩ := buildName_shape ctx c cid
  rw [hp]
  exact matchesName_canonical pre cid

lemma matchesName_nil (id : Name) (h : matchesName [] id) : id = [] := by
  unfold matchesName trimSuffixZip at h
  rw [if_neg] at h
  · exact List.eq_nil_of_suffix_nil h
  · intro hs
    have := hs.length_le
    simp at this

lemma findExisting_mem (files : List Name) (id : Name)
    (h : findExisting files id ≠ []) :
    findExisting files id ∈ files ∧ matchesName (findExisting files id) id := by
  induction files with
  | nil => exact absurd rfl h
  | cons f rest ih =>
    by_cases hf : matchesName f id
    · rw [findExisting, if_pos hf] at h ⊢
      exact ⟨List.mem_cons_self f rest, hf⟩
    · rw [findExisting, if_neg hf] at h ⊢
      obtain ⟨h1, h2⟩ := ih h
      exact ⟨List.mem_cons_of_mem f h1, h2⟩

lemma findExisting_ne_nil (files : List Name) (id : Name) (hid : id ≠ [])
    (h : hasMatch files id) : findExisting files id ≠ [] := by
  induction files with
  | nil => obtain ⟨n, hn, _⟩ := h; exact absurd hn (List.not_mem_nil n)
  | cons f rest ih =>
    by_cases hf : matchesName f id
    · rw [findExisting, if_pos hf]
      intro hnil
      exact hid (matchesName_nil id (hnil ▸ hf))
    · rw [findExisting, if_neg hf]
      obtain ⟨n, hn, hm⟩ := h
      rcases List.mem_cons.mp hn with rfl | hn
      · exact absurd hm hf
      · exact ih ⟨n, hn, hm⟩

lemma findExisting_eq_nil (files : List Name) (id : Name) (hid : id ≠ [])
    (h : findExisting files id = []) : ¬hasMatch files id := fun hm =>
  findExisting_ne_nil files id hid hm h

lemma findExisting_unique (files : List Name) (id : Name) (n : Name)
    (hn : n ∈ files) (hm : matchesName n id)
    (huniq : ∀ m ∈ files, matchesName m id → m = n) :
    findExisting files id = n := by
  induction files with
  | nil => exact absurd hn (List.not_mem_nil n)
  | cons f rest ih =>
    by_cases hf : matchesName f id
    · rw [findExisting, if_pos hf]
      exact huniq f (List.mem_cons_self f rest) hf
    · rw [findExisting, if_neg hf]
      rcases List.mem_cons.mp hn with rfl | hn
      · exact absurd hm hf
      · exact ih hn fun m hmem hmm => huniq m (List.mem_cons_of_mem f hmem) hmm

lemma suffix_eq_of_length {a b x : Name} (ha : a <:+ x) (hb : b <:+ x)
    (hl : a.length = b.length) : a = b := by
  obtain ⟨u, rfl⟩ := ha
  obtain ⟨v, hv⟩ := hb
  exact (List.append_inj' hv.symm hl).2

lemma hasMatch_append (D l : List Name) (t : Name) (h : hasMatch D t) :
    hasMatch (D ++ l) t := by
  obtain ⟨n, hn, hm⟩ := h
  exact ⟨n, List.mem_append_left l hn, hm⟩

lemma hasMatch_append_self (D : List Name) (f t : Name)
    (h : matchesName f t) : hasMatch (D ++ [f]) t :=
  ⟨f, List.mem_append_right D (List.mem_singleton.mpr rfl), h⟩

lemma renameFs_hasMatch {src dst cid t : Name} (D : List Name)
    (hsrc : matchesName src cid) (hdst : matchesName dst cid)
    (hlen : t.length = cid.length) (h : hasMatch D t) :
    hasMatch (renameFs D src dst) t := by
  unfold renameFs
  by_cases hmem : src ∈ D
  · rw [if_pos hmem]
    obtain ⟨n, hn, hm⟩ := h
    by_cases hns : n = src
    · subst hns
      have ht : t = cid := suffix_eq_of_length hm hsrc hlen
      exact ⟨dst, List.mem_append_right _ (List.mem_singleton.mpr rfl), ht ▸ hdst⟩
    · by_cases hnd : n = dst
      · subst hnd
        exact ⟨n, List.mem_append_right _ (List.mem_singleton.mpr rfl), hm⟩
      · exact ⟨n, List.mem_append_left _
          ((List.mem_erase_of_ne hnd).mpr ((List.mem_erase_of_ne hns).mpr hn)), hm⟩
  · rw [if_neg hmem]
    exact h

lemma runSync_cons_true (ctx : SyncCtx) (A : List Name) (st st' : PlanState)
    (c : MangaChapter) (cs : List MangaChapter)
    (h : syncStep ctx A st c = (st', true)) :
    runSync ctx A (c :: cs) st = runSync ctx A cs st' := by
  rw [runSync_cons ctx A st c cs, h]
  rfl

lemma runSync_cons_false (ctx : SyncCtx) (A : List Name) (st st' : PlanState)
    (c : MangaChapter) (cs : List MangaChapter)
    (h : syncStep ctx A st c = (st', false)) :
    runSync ctx A (c :: cs) st = st' := by
  rw [runSync_cons ctx A st c cs, h]
  rfl

lemma syncStep_satisfied (ctx : SyncCtx) (A : List Name) (st : PlanState)
    (c : MangaChapter) {cid : Name} (h : convertUUID c.id = some cid)
    (hdup : c.id ∉ st.seen) (hdata : c.data ≠ [])
    (hext : isExternalOnly c.data = false)
    (hex : findExisting A cid ≠ []) :
    ∃ D', syncStep ctx A st c =
      ({ st with seen := c.id :: st.seen, dir := D' }, true) := by
  by_cases hren : ctx.renameChapters ∧
      findExisting A cid ≠ buildChapterArchiveName ctx c cid
  · exact ⟨_, syncStep_rename ctx A st c h hdup hdata hext hex hren⟩
  · exact ⟨st.dir, syncStep_keep ctx A st c h hdup hdata hext hex hren⟩

lemma runSync_dir_hasMatch (ctx : SyncCtx) (A : List Name) :
    ∀ (cs : List MangaChapter) (st : PlanState) (t : Name), t.length = 22 →
      hasMatch st.dir t → hasMatch (runSync ctx A cs st).dir t
  | [], _, _, _, h => h
  | c :: cs, st, t, hlen, h => by
    cases hcid : convertUUID c.id with
    | none =>
      rw [runSync_cons_false ctx A st st c cs (syncStep_none ctx A st c hcid)]
      exact h
    | some cid =>
      by_cases hdup : c.id ∈ st.seen
      · rw [runSync_cons_true ctx A st st c cs (syncStep_dup ctx A st c hcid hdup)]
        exact runSync_dir_hasMatch ctx A cs st t hlen h
      · by_cases hdata : c.data = []
        · rw [runSync_cons_true ctx A st _ c cs
            (syncStep_empty ctx A st c hcid hdup hdata)]
          exact runSync_dir_hasMatch ctx A cs _ t hlen h
        · cases hext : isExternalOnly c.data with
          | true =>
            rw [runSync_cons_true ctx A st _ c cs
              (syncStep_external ctx A st c hcid hdup hdata hext)]
            exact runSync_dir_hasMatch ctx A cs _ t hlen h
          | false =>
            by_cases hex : findExisting A cid = []
            · rw [runSync_cons_true ctx A st _ c cs
                (syncStep_job ctx A st c hcid hdup hdata hext hex)]
              exact runSync_dir_hasMatch ctx A cs _ t hlen
                (hasMatch_append st.dir _ t h)
            · by_cases hren : ctx.renameChapters ∧
                  findExisting A cid ≠ buildChapterArchiveName ctx c cid
              · rw [runSync_cons_true ctx A st _ c cs
                  (syncStep_rename ctx A st c hcid hdup hdata hext hex hren)]
                refine runSync_dir_hasMatch ctx A cs _ t hlen ?_
                have hcid22 := convertUUID_length c.id cid hcid
                exact renameFs_hasMatch st.dir (findExisting_mem A cid hex).2
                  (matchesName_buildName ctx c cid) (by rw [hlen, hcid22]) h
              · rw [runSync_cons_true ctx A st _ c cs
                  (syncStep_keep ctx A st c hcid hdup hdata hext hex hren)]
                exact runSync_dir_hasMatch ctx A cs _ t hlen h

lemma run2_no_jobs (ctx : SyncCtx) :
    ∀ (cs : List MangaChapter) (st : PlanState) (A D' : List Name),
      D' = (runSync ctx A cs st).dir →
      (∀ t, t.length = 22 → hasMatch A t → hasMatch st.dir t) →
      ∀ (J₂ : List ChapterJob) (D₂ : List Name),
        (runSync ctx D' cs ⟨st.seen, J₂, D₂⟩).jobs = J₂
  | [], _, _, _, _, _, _, _ => rfl
  | c :: cs, st, A, D', hD', hI, J₂, D₂ => by
    cases hcid : convertUUID c.id with
    | none =>
      rw [runSync_cons_false ctx D' ⟨st.seen, J₂, D₂⟩ ⟨st.seen, J₂, D₂⟩ c cs
        (syncStep_none ctx D' ⟨st.seen, J₂, D₂⟩ c hcid)]
    | some cid =>
      by_cases hdup : c.id ∈ st.seen
      · rw [runSync_cons_true ctx A st st c cs
          (syncStep_dup ctx A st c hcid hdup)] at hD'
        rw [runSync_cons_true ctx D' ⟨st.seen, J₂, D₂⟩ ⟨st.seen, J₂, D₂⟩ c cs
          (syncStep_dup ctx D' ⟨st.seen, J₂, D₂⟩ c hcid hdup)]
        exact run2_no_jobs ctx cs st A D' hD' hI J₂ D₂
      · by_cases hdata : c.data = []
        · rw [runSync_cons_true ctx A st _ c cs
            (syncStep_empty ctx A st c hcid hdup hdata)] at hD'
          rw [runSync_cons_true ctx D' ⟨st.seen, J₂, D₂⟩ _ c cs
            (syncStep_empty ctx D' ⟨st.seen, J₂, D₂⟩ c hcid hdup hdata)]
          exact run2_no_jobs ctx cs { st with seen := c.id :: st.seen } A D'
            hD' hI J₂ D₂
        · cases hext : isExternalOnly c.data with
          | true =>
            rw [runSync_cons_true ctx A st _ c cs
              (syncStep_external ctx A st c hcid hdup hdata hext)] at hD'
            rw [runSync_cons_true ctx D' ⟨st.seen, J₂, D₂⟩ _ c cs
              (syncStep_external ctx D' ⟨st.seen, J₂, D₂⟩ c hcid hdup hdata hext)]
            exact run2_no_jobs ctx cs { st with seen := c.id :: st.seen } A D'
              hD' hI J₂ D₂
          | false =>
            have hcid22 := convertUUID_length c.id cid hcid
            have hcidne : cid ≠ [] := by
              intro h0
              rw [h0] at hcid22
              simp at hcid22
            by_cases hex : findExisting A cid = []
            · -- run 1 emits the job and the archive lands in the directory
              set fn := buildChapterArchiveName ctx c cid with hfn
              have hstep := syncStep_job ctx A st c hcid hdup hdata hext hex
              rw [runSync_cons_true ctx A st _ c cs hstep] at hD'
              have hI' : ∀ t, t.length = 22 → hasMatch A t →
                  hasMatch (st.dir ++ [fn]) t := fun t hl ht =>
                hasMatch_append st.dir [fn] t (hI t hl ht)
              have hm2 : hasMatch D' cid := by
                rw [hD']
                exact runSync_dir_hasMatch ctx A cs _ cid hcid22
                  (hasMatch_append_self st.dir fn cid
                    (matchesName_buildName ctx c cid))
              have hex2 : findExisting D' cid ≠ [] :=
                findExisting_ne_nil D' cid hcidne hm2
              obtain ⟨E₂, hstep2⟩ := syncStep_satisfied ctx D' ⟨st.seen, J₂, D₂⟩
                c hcid hdup hdata hext hex2
              rw [runSync_cons_true ctx D' ⟨st.seen, J₂, D₂⟩ _ c cs hstep2]
              exact run2_no_jobs ctx cs
                { st with
                    seen := c.id :: st.seen
                    jobs := st.jobs ++ [⟨c, fn⟩]
                    dir := st.dir ++ [fn] } A D' hD' hI' J₂ E₂
            · -- run 1 finds the chapter already satisfied
              have hm1 : hasMatch st.dir cid :=
                hI cid hcid22 ⟨findExisting A cid, (findExisting_mem A cid hex).1,
                  (findExisting_mem A cid hex).2⟩
              by_cases hren : ctx.renameChapters ∧
                  findExisting A cid ≠ buildChapterArchiveName ctx c cid
              · have hstep := syncStep_rename ctx A st c hcid hdup hdata hext hex hren
                rw [runSync_cons_true ctx A st _ c cs hstep] at hD'
                have hI' : ∀ t, t.length = 22 → hasMatch A t →
                    hasMatch (renameFs st.dir (findExisting A cid)
                      (buildChapterArchiveName ctx c cid)) t := fun t hl ht =>
                  renameFs_hasMatch st.dir (findExisting_mem A cid hex).2
                    (matchesName_buildName ctx c cid) (by rw [hl, hcid22])
                    (hI t hl ht)
                have hm2 : hasMatch D' cid := by
                  rw [hD']
                  exact runSync_dir_hasMatch ctx A cs _ cid hcid22
                    (renameFs_hasMatch st.dir (findExisting_mem A cid hex).2
                      (matchesName_buildName ctx c cid) rfl hm1)
                have hex2 : findExisting D' cid ≠ [] :=
                  findExisting_ne_nil D' cid hcidne hm2
                obtain ⟨E₂, hstep2⟩ := syncStep_satisfied ctx D' ⟨st.seen, J₂, D₂⟩
                  c hcid hdup hdata hext hex2
                rw [runSync_cons_true ctx D' ⟨st.seen, J₂, D₂⟩ _ c cs hstep2]
                exact run2_no_jobs ctx cs
                  { st with
                      seen := c.id :: st.seen
                      dir := renameFs st.dir (findExisting A cid)
                        (buildChapterArchiveName ctx c cid) } A D' hD' hI' J₂ E₂
              · have hstep := syncStep_keep ctx A st c hcid hdup hdata hext hex hren
                rw [runSync_cons_true ctx A st _ c cs hstep] at hD'
                have hm2 : hasMatch D' cid := by
                  rw [hD']
                  exact runSync_dir_hasMatch ctx A cs _ cid hcid22 hm1
                have hex2 : findExisting D' cid ≠ [] :=
                  findExisting_ne_nil D' cid hcidne hm2
                obtain ⟨E₂, hstep2⟩ := syncStep_satisfied ctx D' ⟨st.seen, J₂, D₂⟩
                  c hcid hdup hdata hext hex2
                rw [runSync_cons_true ctx D' ⟨st.seen, J₂, D₂⟩ _ c cs hstep2]
                exact run2_no_jobs ctx cs { st with seen := c.id :: st.seen }
                  A D' hD' hI J₂ E₂

lemma runSync_jobs_mono (ctx : SyncCtx) (A : List Name) :
    ∀ (cs : List MangaChapter) (st : PlanState),
      st.jobs <+: (runSync ctx A cs st).jobs
  | [], _ => List.prefix_refl _
  | c :: cs, st => by
    cases hcid : convertUUID c.id with
    | none =>
      rw [runSync_cons_false ctx A st st c cs (syncStep_none ctx A st c hcid)]
    | some cid =>
      by_cases hdup : c.id ∈ st.seen
      · rw [runSync_cons_true ctx A st st c cs (syncStep_dup ctx A st c hcid hdup)]
        exact runSync_jobs_mono ctx A cs st
      · by_cases hdata : c.data = []
        · rw [runSync_cons_true ctx A st _ c cs
            (syncStep_empty ctx A st c hcid hdup hdata)]
          exact runSync_jobs_mono ctx A cs { st with seen := c.id :: st.seen }
        · cases hext : isExternalOnly c.data with
          | true =>
            rw [runSync_cons_true ctx A st _ c cs
              (syncStep_external ctx A st c hcid hdup hdata hext)]
            exact runSync_jobs_mono ctx A cs { st with seen := c.id :: st.seen }
          | false =>
            by_cases hex : findExisting A cid = []
            · rw [runSync_cons_true ctx A st _ c cs
                (syncStep_job ctx A st c hcid hdup hdata hext hex)]
              refine (List.prefix_append st.jobs
                [(⟨c, buildChapterArchiveName ctx c cid⟩ : ChapterJob)]).trans ?_
              exact runSync_jobs_mono ctx A cs
                { st with
                    seen := c.id :: st.seen
                    jobs := st.jobs ++ [⟨c, buildChapterArchiveName ctx c cid⟩]
                    dir := st.dir ++ [buildChapterArchiveName ctx c cid] }
            · obtain ⟨E, hstep⟩ := syncStep_satisfied ctx A st c hcid hdup hdata
                hext hex
              rw [runSync_cons_true ctx A st _ c cs hstep]
              exact runSync_jobs_mono ctx A cs
                { st with seen := c.id :: st.seen, dir := E }

/-- Every job emitted by a planning pass (beyond those already in the
accumulator) comes from a chapter that passed every check: valid UUID, not
yet seen, page data present, not externally hosted, no matching archive in
the index; its path is the canonical archive name and its record is the
first record of the list with its identifier. -/
lemma newJobs_spec (ctx : SyncCtx) (A : List Name) :
    ∀ (cs : List MangaChapter) (st : PlanState) (j : ChapterJob),
      j ∈ (runSync ctx A cs st).jobs → j ∉ st.jobs →
      j.chapter.id ∉ st.seen ∧
        cs.find? (fun c' => decide (c'.id = j.chapter.id)) = some j.chapter ∧
        ∃ cid, convertUUID j.chapter.id = some cid ∧
          findExisting A cid = [] ∧
          j.archivePath = buildChapterArchiveName ctx j.chapter cid ∧
          j.chapter.data ≠ [] ∧ isExternalOnly j.chapter.data = false
  | [], st, j, hj, hnot => absurd hj hnot
  | c :: cs, st, j, hj, hnot => by
    cases hcid : convertUUID c.id with
    | none =>
      rw [runSync_cons_false ctx A st st c cs (syncStep_none ctx A st c hcid)] at hj
      exact absurd hj hnot
    | some cid =>
      by_cases hdup : c.id ∈ st.seen
      · rw [runSync_cons_true ctx A st st c cs
          (syncStep_dup ctx A st c hcid hdup)] at hj
        obtain ⟨h1, h2, h3⟩ := newJobs_spec ctx A cs st j hj hnot
        refine ⟨h1, ?_, h3⟩
        rw [List.find?_cons_of_neg]
        · exact h2
        · simp only [decide_eq_true_eq]
          intro hcj
          exact h1 (hcj ▸ hdup)
      · by_cases hdata : c.data = []
        · rw [runSync_cons_true ctx A st _ c cs
            (syncStep_empty ctx A st c hcid hdup hdata)] at hj
          obtain ⟨h1, h2, h3⟩ := newJobs_spec ctx A cs _ j hj hnot
          have hne : j.chapter.id ≠ c.id := fun hcj =>
            h1 (by simp [hcj])
          refine ⟨fun hmem => h1 (List.mem_cons_of_mem _ hmem), ?_, h3⟩
          rw [List.find?_cons_of_neg]
          · exact h2
          · simp only [decide_eq_true_eq]
            exact fun hcj => hne hcj.symm
        · cases hext : isExternalOnly c.data with
          | true =>
            rw [runSync_cons_true ctx A st _ c cs
              (syncStep_external ctx A st c hcid hdup hdata hext)] at hj
            obtain ⟨h1, h2, h3⟩ := newJobs_spec ctx A cs _ j hj hnot
            have hne : j.chapter.id ≠ c.id := fun hcj => h1 (by simp [hcj])
            refine ⟨fun hmem => h1 (List.mem_cons_of_mem _ hmem), ?_, h3⟩
            rw [List.find?_cons_of_neg]
            · exact h2
            · simp only [decide_eq_true_eq]
              exact fun hcj => hne hcj.symm
          | false =>
            by_cases hex : findExisting A cid = []
            · rw [runSync_cons_true ctx A st _ c cs
                (syncStep_job ctx A st c hcid hdup hdata hext hex)] at hj
              by_cases hjnew : j ∈ st.jobs ++ [(⟨c, buildChapterArchiveName ctx c cid⟩ : ChapterJob)]
              · have hjc : j = ⟨c, buildChapterArchiveName ctx c cid⟩ := by
                  rcases List.mem_append.mp hjnew with h | h
                  · exact absurd h hnot
                  · exact List.mem_singleton.mp h
                subst hjc
                refine ⟨hdup, ?_, cid, hcid, hex, rfl, hdata, hext⟩
                rw [List.find?_cons_of_pos]
                simp
              · obtain ⟨h1, h2, h3⟩ := newJobs_spec ctx A cs _ j hj hjnew
                have hne : j.chapter.id ≠ c.id := fun hcj => h1 (by simp [hcj])
                refine ⟨fun hmem => h1 (List.mem_cons_of_mem _ hmem), ?_, h3⟩
                rw [List.find?_cons_of_neg]
                · exact h2
                · simp only [decide_eq_true_eq]
                  exact fun hcj => hne hcj.symm
            · obtain ⟨E, hstep⟩ := syncStep_satisfied ctx A st c hcid hdup hdata
                hext hex
              rw [runSync_cons_true ctx A st _ c cs hstep] at hj
              obtain ⟨h1, h2, h3⟩ := newJobs_spec ctx A cs _ j hj hnot
              have hne : j.chapter.id ≠ c.id := fun hcj => h1 (by simp [hcj])
              refine ⟨fun hmem => h1 (List.mem_cons_of_mem _ hmem), ?_, h3⟩
              rw [List.find?_cons_of_neg]
              · exact h2
              · simp only [decide_eq_true_eq]
                exact fun hcj => hne hcj.symm

lemma runSync_jobs_ids (ctx : SyncCtx) (A : List Name) :
    ∀ (cs : List MangaChapter) (st : PlanState),
      (∀ j ∈ st.jobs, j.chapter.id ∈ st.seen) →
      ((st.jobs.map fun j => j.chapter.id).Nodup) →
      (∀ j ∈ (runSync ctx A cs st).jobs,
          j.chapter.id ∈ (runSync ctx A cs st).seen) ∧
        (((runSync ctx A cs st).jobs.map fun j => j.chapter.id).Nodup)
  | [], st, hsub, hnd => ⟨hsub, hnd⟩
  | c :: cs, st, hsub, hnd => by
    cases hcid : convertUUID c.id with
    | none =>
      rw [runSync_cons_false ctx A st st c cs (syncStep_none ctx A st c hcid)]
      exact ⟨hsub, hnd⟩
    | some cid =>
      by_cases hdup : c.id ∈ st.seen
      · rw [runSync_cons_true ctx A st st c cs (syncStep_dup ctx A st c hcid hdup)]
        exact runSync_jobs_ids ctx A cs st hsub hnd
      · by_cases hdata : c.data = []
        · rw [runSync_cons_true ctx A st _ c cs
            (syncStep_empty ctx A st c hcid hdup hdata)]
          exact runSync_jobs_ids ctx A cs { st with seen := c.id :: st.seen }
            (fun j hj => List.mem_cons_of_mem _ (hsub j hj)) hnd
        · cases hext : isExternalOnly c.data with
          | true =>
            rw [runSync_cons_true ctx A st _ c cs
              (syncStep_external ctx A st c hcid hdup hdata hext)]
            exact runSync_jobs_ids ctx A cs { st with seen := c.id :: st.seen }
              (fun j hj => List.mem_cons_of_mem _ (hsub j hj)) hnd
          | false =>
            by_cases hex : findExisting A cid = []
            · rw [runSync_cons_true ctx A st _ c cs
                (syncStep_job ctx A st c hcid hdup hdata hext hex)]
              refine runSync_jobs_ids ctx A cs
                { st with
                    seen := c.id :: st.seen
                    jobs := st.jobs ++ [⟨c, buildChapterArchiveName ctx c cid⟩]
                    dir := st.dir ++ [buildChapterArchiveName ctx c cid] }
                ?_ ?_
              · intro j hj
                rcases List.mem_append.mp hj with h | h
                · exact List.mem_cons_of_mem _ (hsub j h)
                · rw [List.mem_singleton.mp h]
                  exact List.mem_cons_self _ _
              · rw [List.map_append]
                simp only [List.map_cons, List.map_nil]
                rw [List.nodup_append]
                refine ⟨hnd, List.nodup_singleton _, ?_⟩
                intro i hi
                simp only [List.mem_singleton]
                intro hic
                rcases List.mem_map.mp hi with ⟨j, hj, hji⟩
                exact hdup (hic ▸ hji ▸ hsub j hj)
            · obtain ⟨E, hstep⟩ := syncStep_satisfied ctx A st c hcid hdup hdata
                hext hex
              rw [runSync_cons_true ctx A st _ c cs hstep]
              exact runSync_jobs_ids ctx A cs
                { st with seen := c.id :: st.seen, dir := E }
                (fun j hj => List.mem_cons_of_mem _ (hsub j hj)) hnd

lemma nodup_filter_length_le {α β : Type} [DecidableEq β] (f : α → β) (i : β) :
    ∀ l : List α, ((l.map f).Nodup) →
      (l.filter fun x => decide (f x = i)).length ≤ 1
  | [], _ => by simp
  | x :: t, hnd => by
    rw [List.map_cons, List.nodup_cons] at hnd
    by_cases hx : f x = i
    · rw [List.filter_cons_of_pos (by simpa using hx)]
      have ht : t.filter (fun y => decide (f y = i)) = [] := by
        rw [List.filter_eq_nil_iff]
        intro y hy
        simp only [decide_eq_true_eq]
        intro hyi
        exact hnd.1 (List.mem_map.mpr ⟨y, hy, hyi.trans hx.symm⟩)
      rw [ht]
      simp
    · rw [List.filter_cons_of_neg (by simpa using hx)]
      exact nodup_filter_length_le f i t hnd.2

lemma runSync_job_exists (ctx : SyncCtx) (A : List Name) :
    ∀ (cs : List MangaChapter) (st : PlanState) (c₀ : MangaChapter) (cid : Name),
      (∀ c ∈ cs, (convertUUID c.id).isSome) →
      cs.find? (fun c' => decide (c'.id = c₀.id)) = some c₀ →
      c₀.id ∉ st.seen →
      convertUUID c₀.id = some cid →
      c₀.data ≠ [] → isExternalOnly c₀.data = false →
      findExisting A cid = [] →
      ∃ j ∈ (runSync ctx A cs st).jobs, j.chapter = c₀ ∧
        j.archivePath = buildChapterArchiveName ctx c₀ cid
  | [], _, _, _, _, hfind, _, _, _, _, _ => by simp at hfind
  | c :: cs, st, c₀, cid, hall, hfind, hseen, hcid0, hdata0, hext0, hex0 => by
    by_cases hc : c.id = c₀.id
    · rw [List.find?_cons_of_pos _ (by simpa using hc)] at hfind
      have hcc : c = c₀ := by injection hfind
      subst hcc
      have hstep := syncStep_job ctx A st c hcid0 hseen hdata0 hext0 hex0
      rw [runSync_cons_true ctx A st _ c cs hstep]
      refine ⟨⟨c, buildChapterArchiveName ctx c cid⟩, ?_, rfl, rfl⟩
      refine List.IsPrefix.mem ?_ (runSync_jobs_mono ctx A cs _)
      exact List.mem_append_right st.jobs (List.mem_singleton.mpr rfl)
    · rw [List.find?_cons_of_neg _ (by simpa using hc)] at hfind
      have hall' : ∀ c' ∈ cs, (convertUUID c'.id).isSome :=
        fun c' hc' => hall c' (List.mem_cons_of_mem c hc')
      have hsome := hall c (List.mem_cons_self c cs)
      cases hcid : convertUUID c.id with
      | none => rw [hcid] at hsome; simp at hsome
      | some cidc =>
        by_cases hdup : c.id ∈ st.seen
        · rw [runSync_cons_true ctx A st st c cs
            (syncStep_dup ctx A st c hcid hdup)]
          exact runSync_job_exists ctx A cs st c₀ cid hall' hfind hseen hcid0
            hdata0 hext0 hex0
        · have hseen' : c₀.id ∉ c.id :: st.seen := by
            intro h
            rcases List.mem_cons.mp h with h | h
            · exact hc h.symm
            · exact hseen h
          by_cases hdata : c.data = []
          · rw [runSync_cons_true ctx A st _ c cs
              (syncStep_empty ctx A st c hcid hdup hdata)]
            exact runSync_job_exists ctx A cs _ c₀ cid hall' hfind hseen' hcid0
              hdata0 hext0 hex0
          · cases hext : isExternalOnly c.data with
            | true =>
              rw [runSync_cons_true ctx A st _ c cs
                (syncStep_external ctx A st c hcid hdup hdata hext)]
              exact runSync_job_exists ctx A cs _ c₀ cid hall' hfind hseen' hcid0
                hdata0 hext0 hex0
            | false =>
              by_cases hex : findExisting A cidc = []
              · rw [runSync_cons_true ctx A st _ c cs
                  (syncStep_job ctx A st c hcid hdup hdata hext hex)]
                exact runSync_job_exists ctx A cs _ c₀ cid hall' hfind hseen' hcid0
                  hdata0 hext0 hex0
              · obtain ⟨E, hstep⟩ := syncStep_satisfied ctx A st c hcid hdup hdata
                  hext hex
                rw [runSync_cons_true ctx A st _ c cs hstep]
                exact runSync_job_exists ctx A cs _ c₀ cid hall' hfind hseen' hcid0
                  hdata0 hext0 hex0

lemma fetchLoop_stop (fetch : Nat → PageResp) (fuel offset total : Nat)
    (h : ¬offset < total) :
    fetchLoop fetch (fuel + 1) offset total = ⟨[], [], []⟩ := by
  simp [fetchLoop, h]

lemma fetchLoop_go (fetch : Nat → PageResp) (fuel offset total : Nat)
    (h : offset < total) :
    fetchLoop fetch (fuel + 1) offset total =
      ⟨(fetch offset).results ++
          (fetchLoop fetch fuel (offset + pageSize) (fetch offset).total).chapters,
        (if (fetch offset).results.length ≠ pageSize ∧
            offset + (fetch offset).results.length < (fetch offset).total then
          [(offset, (fetch offset).total, (fetch offset).results.length)]
        else []) ++
          (fetchLoop fetch fuel (offset + pageSize) (fetch offset).total).warnings,
        offset ::
          (fetchLoop fetch fuel (offset + pageSize) (fetch offset).total).offsets⟩ := by
  simp [fetchLoop, h]

lemma fetchLoop_offsets_progression (fetch : Nat → PageResp) :
    ∀ (fuel offset total : Nat), ∃ k,
      (fetchLoop fetch fuel offset total).offsets =
        (List.range k).map fun i => offset + pageSize * i
  | 0, _, _ => ⟨0, rfl⟩
  | fuel + 1, offset, total => by
    by_cases h : offset < total
    · obtain ⟨k, hk⟩ := fetchLoop_offsets_progression fetch fuel
        (offset + pageSize) (fetch offset).total
      refine ⟨k + 1, ?_⟩
      rw [fetchLoop_go fetch fuel offset total h]
      show offset :: _ = _
      rw [hk, List.range_succ_eq_map, List.map_cons, List.map_map]
      refine congrArg₂ _ (by simp) (List.map_congr_left ?_)
      intro i _
      show offset + pageSize + pageSize * i = offset + pageSize * Nat.succ i
      rw [Nat.mul_succ]
      omega
    · refine ⟨0, ?_⟩
      rw [fetchLoop_stop fetch fuel offset total h]
      rfl

lemma fetchLoop_warning_logged (fetch : Nat → PageResp) :
    ∀ (fuel offset total o : Nat),
      o ∈ (fetchLoop fetch fuel offset total).offsets →
      (fetch o).results.length ≠ pageSize →
      o + (fetch o).results.length < (fetch o).total →
      (o, (fetch o).total, (fetch o).results.length) ∈
        (fetchLoop fetch fuel offset total).warnings
  | 0, _, _, o, hmem, _, _ => absurd hmem (List.not_mem_nil o)
  | fuel + 1, offset, total, o, hmem, hshort, hmore => by
    by_cases h : offset < total
    · rw [fetchLoop_go fetch fuel offset total h] at hmem ⊢
      rcases List.mem_cons.mp hmem with rfl | hmem
      · exact List.mem_append_left _ (by rw [if_pos ⟨hshort, hmore⟩]; simp)
      · exact List.mem_append_right _
          (fetchLoop_warning_logged fetch fuel _ _ o hmem hshort hmore)
    · rw [fetchLoop_stop fetch fuel offset total h] at hmem
      exact absurd hmem (List.not_mem_nil o)

lemma fetchLoop_chapters_flatten (fetch : Nat → PageResp) :
    ∀ (fuel offset total : Nat),
      (fetchLoop fetch fuel offset total).chapters =
        ((fetchLoop fetch fuel offset total).offsets).flatMap
          fun o => (fetch o).results
  | 0, _, _ => rfl
  | fuel + 1, offset, total => by
    by_cases h : offset < total
    · rw [fetchLoop_go fetch fuel offset total h]
      show (fetch offset).results ++ _ = ((offset :: _).flatMap _)
      rw [List.flatMap_cons, fetchLoop_chapters_flatten fetch fuel _ _]
    · rw [fetchLoop_stop fetch fuel offset total h]
      rfl

/-- C1 Planner idempotence: the canonical archive filename always ends
with `" - <token>.zip"`; a listing containing the canonical filename makes
`findExisting` return a non-empty, token-matching name (and exactly the
canonical name when it is the only match); and a second planning pass over
the directory produced by a first pass (with its planned downloads
completed) emits zero download jobs. -/
theorem planner_idempotence :
    (∀ (ctx : SyncCtx) (c : MangaChapter) (cid : Name), ∃ pre,
        buildChapterArchiveName ctx c cid =
          pre ++ " - ".toList ++ cid ++ ".zip".toList) ∧
    (∀ (ctx : SyncCtx) (files : List Name) (c : MangaChapter) (cid : Name),
        buildChapterArchiveName ctx c cid ∈ files → cid ≠ [] →
        findExisting files cid ≠ [] ∧
          matchesName (findExisting files cid) cid) ∧
    (∀ (ctx : SyncCtx) (files : List Name) (c : MangaChapter) (cid : Name),
        buildChapterArchiveName ctx c cid ∈ files →
        (∀ n ∈ files, matchesName n cid → n = buildChapterArchiveName ctx c cid) →
        findExisting files cid = buildChapterArchiveName ctx c cid) ∧
    (∀ (ctx : SyncCtx) (dir : List Name) (cs : List MangaChapter),
        (planWork ctx (planWork ctx dir cs).dir cs).jobs = []) := by
  refine ⟨buildName_shape, ?_, ?_, ?_⟩
  · intro ctx files c cid hmem hcid
    have hne := findExisting_ne_nil files cid hcid
      ⟨_, hmem, matchesName_buildName ctx c cid⟩
    exact ⟨hne, (findExisting_mem files cid hne).2⟩
  · intro ctx files c cid hmem huniq
    exact findExisting_unique files cid _ hmem (matchesName_buildName ctx c cid)
      huniq
  · intro ctx dir cs
    exact run2_no_jobs ctx cs ⟨[], [], dir⟩ dir _ rfl (fun _ _ h => h) [] _

theorem planner_idempotence_witness :
    findExisting [buildChapterArchiveName ctxCE goodChapter tokA] tokA ≠ [] ∧
    matchesName (findExisting [buildChapterArchiveName ctxCE goodChapter tokA]
      tokA) tokA :=
  planner_idempotence.2.1 ctxCE [buildChapterArchiveName ctxCE goodChapter tokA]
    goodChapter tokA (List.mem_singleton.mpr rfl) (by decide)

/-- C2 Chapter-download atomicity: the staging directory never survives
a `downloadChapter` call, and if any page of a multi-page chapter fails the
zip step is never reached and no archive is written. -/
theorem chapter_atomicity (env : ChapterEnv) (pages : List Name) :
    (downloadChapter env pages).noStagingLeft = true ∧
    (1 < pages.length →
      (∃ i, i < pages.length ∧ env.pageOk i = false) →
      (downloadChapter env pages).zipAttempted = false ∧
      (downloadChapter env pages).archiveWritten = false) := by
  unfold downloadChapter
  split_ifs with h1 h2 h3 h4 h5 h6 h7
  · exact ⟨rfl, fun _ _ => ⟨rfl, rfl⟩⟩
  · exact ⟨rfl, fun _ _ => ⟨rfl, rfl⟩⟩
  · exact ⟨rfl, fun _ _ => ⟨rfl, rfl⟩⟩
  · exact ⟨rfl, fun _ _ => ⟨rfl, rfl⟩⟩
  · exact ⟨rfl, fun _ _ => ⟨rfl, rfl⟩⟩
  · exact ⟨rfl, fun _ _ => ⟨rfl, rfl⟩⟩
  · exact ⟨rfl, fun _ _ => ⟨rfl, rfl⟩⟩
  · refine ⟨rfl, fun _ hfail => ?_⟩
    obtain ⟨i, hi, hbad⟩ := hfail
    exact absurd (List.any_eq_true.mpr
      ⟨i, List.mem_range.mpr hi, by simp [hbad]⟩) h7


theorem chapter_atomicity_witness :
    (downloadChapter envCE pagesCE).noStagingLeft = true ∧
    (downloadChapter envCE pagesCE).zipAttempted = false :=
  ⟨(chapter_atomicity envCE pagesCE).1,
    ((chapter_atomicity envCE pagesCE).2 (by decide)
      ⟨1, by decide, by decide⟩).1⟩

/-- C4 Rename stability / already-satisfied: every emitted job is for a
chapter whose token had no match in the archive index (so a matched
chapter never yields a job, whatever the rename flag), and when renaming
is enabled and the matched name differs from the canonical one the step
renames it in place (clobbering any colliding path) and emits nothing; the
old and the new name both carry the chapter's token as suffix. -/
theorem rename_stability :
    (∀ (ctx : SyncCtx) (A : List Name) (cs : List MangaChapter)
        (st : PlanState) (j : ChapterJob),
        j ∈ (runSync ctx A cs st).jobs → j ∉ st.jobs →
        ∃ cid, convertUUID j.chapter.id = some cid ∧ findExisting A cid = []) ∧
    (∀ (ctx : SyncCtx) (A : List Name) (st : PlanState) (c : MangaChapter)
        (cid : Name),
        convertUUID c.id = some cid → c.id ∉ st.seen → c.data ≠ [] →
        isExternalOnly c.data = false → findExisting A cid ≠ [] →
        ctx.renameChapters = true →
        findExisting A cid ≠ buildChapterArchiveName ctx c cid →
        syncStep ctx A st c =
          ({ st with
              seen := c.id :: st.seen
              dir := renameFs st.dir (findExisting A cid)
                (buildChapterArchiveName ctx c cid) }, true) ∧
          matchesName (findExisting A cid) cid ∧
          matchesName (buildChapterArchiveName ctx c cid) cid) := by
  constructor
  · intro ctx A cs st j hj hnot
    obtain ⟨-, -, cid, hcid, hex, -, -, -⟩ := newJobs_spec ctx A cs st j hj hnot
    exact ⟨cid, hcid, hex⟩
  · intro ctx A st c cid hcid hdup hdata hext hex hrc hdiff
    refine ⟨syncStep_rename ctx A st c hcid hdup hdata hext hex ⟨hrc, hdiff⟩,
      (findExisting_mem A cid hex).2, matchesName_buildName ctx c cid⟩

theorem rename_stability_witness :
    matchesName (findExisting [oldNameCE] tokA) tokA ∧
    matchesName (buildChapterArchiveName ctxCE goodChapter tokA) tokA :=
  ⟨(rename_stability.2 ctxCE [oldNameCE] ⟨[], [], [oldNameCE]⟩ goodChapter tokA
      (by decide) (by decide) (by decide) (by decide) (by decide) rfl
      (by decide)).2.1,
    (rename_stability.2 ctxCE [oldNameCE] ⟨[], [], [oldNameCE]⟩ goodChapter tokA
      (by decide) (by decide) (by decide) (by decide) (by decide) rfl
      (by decide)).2.2⟩

/-- C5 Duplicate identifiers: every emitted job's record is the first
record of the remote list carrying its identifier; at most one job per
identifier is emitted; and when the first record with a given identifier
is eligible (valid UUID, page data, not external, no matching archive) and
every listed record has a parsable identifier, a job for it is emitted. -/
theorem duplicate_identifiers :
    (∀ (ctx : SyncCtx) (D : List Name) (cs : List MangaChapter)
        (j : ChapterJob), j ∈ (planWork ctx D cs).jobs →
        cs.find? (fun c' => decide (c'.id = j.chapter.id)) = some j.chapter) ∧
    (∀ (ctx : SyncCtx) (D : List Name) (cs : List MangaChapter) (i : Name),
        ((planWork ctx D cs).jobs.filter
          fun j => decide (j.chapter.id = i)).length ≤ 1) ∧
    (∀ (ctx : SyncCtx) (D : List Name) (cs : List MangaChapter)
        (c₀ : MangaChapter) (cid : Name),
        (∀ c ∈ cs, (convertUUID c.id).isSome) →
        cs.find? (fun c' => decide (c'.id = c₀.id)) = some c₀ →
        convertUUID c₀.id = some cid → c₀.data ≠ [] →
        isExternalOnly c₀.data = false → findExisting D cid = [] →
        ∃ j ∈ (planWork ctx D cs).jobs, j.chapter = c₀) := by
  refine ⟨?_, ?_, ?_⟩
  · intro ctx D cs j hj
    exact (newJobs_spec ctx D cs ⟨[], [], D⟩ j hj (List.not_mem_nil j)).2.1
  · intro ctx D cs i
    refine nodup_filter_length_le (fun j : ChapterJob => j.chapter.id) i _ ?_
    exact (runSync_jobs_ids ctx D cs ⟨[], [], D⟩
      (fun j hj => absurd hj (List.not_mem_nil j)) List.nodup_nil).2
  · intro ctx D cs c₀ cid hall hfind hcid hdata hext hex
    obtain ⟨j, hj, hjc, -⟩ := runSync_job_exists ctx D cs ⟨[], [], D⟩ c₀ cid hall
      hfind (List.not_mem_nil c₀.id) hcid hdata hext hex
    exact ⟨j, hj, hjc⟩

theorem duplicate_identifiers_witness :
    ∃ j ∈ (planWork ctxCE [] [goodChapter, goodChapter]).jobs,
      j.chapter = goodChapter :=
  duplicate_identifiers.2.2 ctxCE [] [goodChapter, goodChapter] goodChapter tokA
    (by decide) (by decide) (by decide) (by decide) (by decide) (by decide)

/-- C8 Empty and externally-hosted chapter skip: every emitted job has
page data and is not externally hosted, and a surviving chapter with no
page data or a single external-link page is skipped by the step with only
its identifier recorded, no error and no job. -/
theorem empty_external_skip :
    (∀ (ctx : SyncCtx) (D : List Name) (cs : List MangaChapter)
        (j : ChapterJob), j ∈ (planWork ctx D cs).jobs →
        j.chapter.data ≠ [] ∧ isExternalOnly j.chapter.data = false) ∧
    (∀ (ctx : SyncCtx) (A : List Name) (st : PlanState) (c : MangaChapter)
        (cid : Name), convertUUID c.id = some cid → c.id ∉ st.seen →
        (c.data = [] ∨ isExternalOnly c.data = true) →
        syncStep ctx A st c = ({ st with seen := c.id :: st.seen }, true)) := by
  constructor
  · intro ctx D cs j hj
    obtain ⟨-, -, cid, -, -, -, hdata, hext⟩ :=
      newJobs_spec ctx D cs ⟨[], [], D⟩ j hj (List.not_mem_nil j)
    exact ⟨hdata, hext⟩
  · intro ctx A st c cid hcid hdup hskip
    rcases hskip with hdata | hext
    · exact syncStep_empty ctx A st c hcid hdup hdata
    · by_cases hdata : c.data = []
      · exact syncStep_empty ctx A st c hcid hdup hdata
      · exact syncStep_external ctx A st c hcid hdup hdata hext

theorem empty_external_skip_witness :
    syncStep ctxCE [] ⟨[], [], []⟩ emptyChapter =
      (⟨[emptyChapter.id], [], []⟩, true) :=
  empty_external_skip.2 ctxCE [] ⟨[], [], []⟩ emptyChapter
    "AQIDBAUGBwgJCgsMDQ4PEA".toList (by decide) (by decide) (Or.inl rfl)

/-- C9 Filename sanitizer contract: in either regex mode every output
character is allow-listed, no two hyphens are adjacent, the output neither
starts nor ends with a hyphen or space, and the concrete example sanitizes
as the claim states in question-mark-disallowed mode. -/
theorem sanitizer_contract :
    (∀ (pLN : Char → Bool) (qm : Bool) (l : List Char),
        ∀ c ∈ convertName (pAllowed pLN qm) l, pAllowed pLN qm c = true) ∧
    (∀ (pLN : Char → Bool) (qm : Bool) (l : List Char),
        NoDoubleHyphen (convertName (pAllowed pLN qm) l)) ∧
    (∀ (pLN : Char → Bool) (qm : Bool) (l : List Char) (c : Char),
        ((convertName (pAllowed pLN qm) l).head? = some c →
          cutChar c = false) ∧
        ((convertName (pAllowed pLN qm) l).getLast? = some c →
          cutChar c = false)) ∧
    convertName (pAllowed asciiLN false) "Attack on Titan: Vol. 1?".toList =
      "Attack on Titan- Vol. 1".toList := by
  refine ⟨?_, ?_, ?_, by decide⟩
  · intro pLN qm l
    exact (convertName_sanitized (pAllowed pLN qm) (pAllowed_hyphen pLN qm) l).1
  · intro pLN qm l
    exact (convertName_sanitized (pAllowed pLN qm) (pAllowed_hyphen pLN qm) l).2.1
  · intro pLN qm l c
    have h := convertName_sanitized (pAllowed pLN qm) (pAllowed_hyphen pLN qm) l
    exact ⟨h.2.2.1 c, h.2.2.2 c⟩

theorem sanitizer_contract_witness :
    pAllowed asciiLN false 'A' = true :=
  sanitizer_contract.1 asciiLN false "A".toList 'A' (by decide)

/-- C10 Sanitizer idempotence: in either regex mode, applying
`convertName` twice gives the same result as applying it once. -/
theorem sanitizer_idempotent (pLN : Char → Bool) (qm : Bool) (l : List Char) :
    convertName (pAllowed pLN qm) (convertName (pAllowed pLN qm) l) =
      convertName (pAllowed pLN qm) l :=
  convertName_of_sanitized (pAllowed pLN qm) _
    (convertName_sanitized (pAllowed pLN qm) (pAllowed_hyphen pLN qm) l)

set_option maxRecDepth 8000 in
/-- C6 counterexample: The claim makes the total authoritative from the
first page.  Against a remote whose first page reports total 150 but whose
second page reports 250, the code fetches a third page at offset 200
(which a first-page-authoritative loop would never do, since 200 ≥ 150)
and returns 250 records where the spec-modelled loop returns 200. -/
theorem pagination_firstpage_counterexample :
    (fetchCE 0).total = 150 ∧
    (getAllChapters fetchCE 10).offsets = [0, 100, 200] ∧
    (getAllChapters fetchCE 10).chapters.length = 250 ∧
    (getAllChaptersSpec fetchCE 10).length = 200 := by
  refine ⟨rfl, by decide, ?_, ?_⟩
  · decide
  · decide

/-- C6 amended: The offset always advances by the nominal page size;
a page shorter than the page size with more remaining (per that page's
reported total) logs a pagination warning; fetching continues over every
visited offset (the chapter list is the concatenation of all visited
pages); and the loop bound is re-read from each fetched page's total. -/
theorem pagination_amended :
    (∀ (fetch : Nat → PageResp) (fuel offset total : Nat), ∃ k,
        (fetchLoop fetch fuel offset total).offsets =
          (List.range k).map fun i => offset + pageSize * i) ∧
    (∀ (fetch : Nat → PageResp) (fuel offset total o : Nat),
        o ∈ (fetchLoop fetch fuel offset total).offsets →
        (fetch o).results.length ≠ pageSize →
        o + (fetch o).results.length < (fetch o).total →
        (o, (fetch o).total, (fetch o).results.length) ∈
          (fetchLoop fetch fuel offset total).warnings) ∧
    (∀ (fetch : Nat → PageResp) (fuel offset total : Nat),
        (fetchLoop fetch fuel offset total).chapters =
          ((fetchLoop fetch fuel offset total).offsets).flatMap
            fun o => (fetch o).results) ∧
    (∀ (fetch : Nat → PageResp) (fuel offset total : Nat), offset < total →
        (fetchLoop fetch (fuel + 1) offset total).offsets =
          offset :: (fetchLoop fetch fuel (offset + pageSize)
            (fetch offset).total).offsets) :=
  ⟨fetchLoop_offsets_progression, fetchLoop_warning_logged,
    fetchLoop_chapters_flatten, fun fetch fuel offset total h => by
      rw [fetchLoop_go fetch fuel offset total h]⟩


set_option maxRecDepth 2000 in
theorem pagination_amended_witness :
    (0, 200, 50) ∈ (getAllChapters fetchShort 5).warnings :=
  pagination_amended.2.1 fetchShort 5 0 1 0 (by decide) (by decide) (by decide)

/-- C7 counterexample: A malformed chapter identifier does not merely
skip that chapter: `syncManga` returns, so an otherwise eligible later
chapter of the same work is not processed.  With the malformed chapter
first, the pass plans zero jobs, while the same eligible chapter alone
yields one job. -/
theorem invalid_uuid_counterexample :
    convertUUID badChapter.id = none ∧
    (planWork ctxCE [] [badChapter, goodChapter]).jobs = [] ∧
    (planWork ctxCE [] [goodChapter]).jobs.length = 1 := by
  refine ⟨by decide, by decide, by decide⟩

/-- C7 amended: The codec rejects malformed identifiers (any length
other than the four accepted shapes), an invalid identifier aborts the
remainder of that work's chapter loop (the state so far is returned
unchanged), and the works that follow in the batch are still synced. -/
theorem invalid_uuid_amended :
    (∀ s : Name, s.length ≠ 36 → s.length ≠ 45 → s.length ≠ 38 →
        s.length ≠ 32 → convertUUID s = none) ∧
    (∀ (ctx : SyncCtx) (A : List Name) (c : MangaChapter)
        (cs : List MangaChapter) (st : PlanState), convertUUID c.id = none →
        runSync ctx A (c :: cs) st = st) ∧
    (∀ (ctx : SyncCtx) (A₁ : List Name) (c : MangaChapter)
        (cs₁ : List MangaChapter) (ws : List (List Name × List MangaChapter)),
        convertUUID c.id = none →
        syncAllWorks ctx ((A₁, c :: cs₁) :: ws) = syncAllWorks ctx ws) := by
  refine ⟨?_, ?_, ?_⟩
  · intro s h36 h45 h38 h32
    rw [convertUUID, uuidParse]
    rw [if_neg h36, if_neg (by omega), if_neg (by omega), if_neg h32]
    rfl
  · intro ctx A c cs st h
    exact runSync_cons_false ctx A st st c cs (syncStep_none ctx A st c h)
  · intro ctx A₁ c cs₁ ws h
    show (planWork ctx A₁ (c :: cs₁)).jobs ++ syncAllWorks ctx ws =
      syncAllWorks ctx ws
    unfold planWork
    rw [runSync_cons_false ctx A₁ ⟨[], [], A₁⟩ ⟨[], [], A₁⟩ c cs₁
      (syncStep_none ctx A₁ ⟨[], [], A₁⟩ c h)]
    rfl

theorem invalid_uuid_amended_witness :
    runSync ctxCE [] [badChapter, goodChapter] ⟨[], [], []⟩ = ⟨[], [], []⟩ :=
  invalid_uuid_amended.2.1 ctxCE [] badChapter [goodChapter] ⟨[], [], []⟩
    (by decide)

end MangaSyncer
